import Mathlib

/-!
Shallow embedding of `src/main.py`: an adaptive quadtree harvester for the
OpenStreetMap notes API.  The program tiles the country's bounding box with a
coarse grid of square cells, fetches each cell's open notes (page cap 10000),
subdivides a cell into four quadrants whenever the page cap is hit, filters the
returned features to those with a nonempty comment list whose geometry lies in
the country polygon, normalizes each surviving feature, and finally writes the
accumulated features sorted by note id.

Modelling conventions:
  * coordinates are rationals (Python floats carrying exact halvings);
  * the remote API and the shapely polygon are external collaborators and are
    modelled from the spec as an abstract `World` / `Region`;
  * exceptions (HTTP errors, `KeyError`, `ValueError` from `int()`) are
    modelled by `Option`: `none` is a raised error that aborts the whole run;
  * the unbounded recursion of `process_cell` is driven by an explicit fuel
    parameter; exhausting the fuel is modelled as nontermination (`none`);
  * Python's salted-hash `set` iteration order is a parameter `enum`
    (any enumeration of the distinct elements, see `SetEnum`).
-/

namespace OsmNotes

/-! ## Definitions: concrete regions, worlds, notes and auxiliary predicates -/

/-- One note comment as delivered by the API.  The `user` key is absent for
anonymous notes; `text` and `date` are kept optional to model missing JSON keys
(`first_comment['text']` / `first_comment['date']` raise `KeyError` when
absent). -/
structure Comment where
  user : Option String
  text : Option String
  date : Option String
deriving DecidableEq

/-- The `properties` object of one GeoJSON feature.  The keys that
`src/main.py` reads, writes or deletes are explicit fields (`none` models an
absent key); every other key is opaque to the program and collected in
`extra`. -/
structure Props where
  id : Int
  comments : Option (List Comment)
  url : Option String
  comment_url : Option String
  close_url : Option String
  user : Option String
  text : Option String
  tags : Option String
  year : Option Int
  extra : List (String × String)
deriving DecidableEq

/-- One GeoJSON feature returned by `notes.json`: a point geometry plus its
properties object. -/
structure Feature where
  geometry : ℚ × ℚ
  props : Props
deriving DecidableEq

/-- A square query cell `(minLon, minLat, size)`, as passed to `process_cell`. -/
structure Cell where
  lon : ℚ
  lat : ℚ
  size : ℚ
deriving DecidableEq

/-- Modelled from the spec: the country polygon (an external shapely geometry)
is abstracted to its two query predicates together with its bounding box
(`country.bounds`).  `intersects` answers `country.intersects(box(...))` on a
cell's rectangle, `contains` answers `country.contains(shape(geometry))` on a
point geometry. -/
structure Region where
  contains : ℚ × ℚ → Bool
  intersects : Cell → Bool
  minLon : ℚ
  minLat : ℚ
  maxLon : ℚ
  maxLat : ℚ

/-- Modelled from the spec: the remote API's state.  `notes` is the full list
of currently open notes (the `closed=0` filter is applied by the server);
`netFail` marks the cells whose HTTP request fails (transport error or non-2xx
status, raised by `r.raise_for_status()`). -/
structure World where
  notes : List Feature
  netFail : Cell → Bool

/-- `API_LIMIT = 10_000`, the page-size cap sent with every query. -/
def API_LIMIT : Nat := 10000

/-- `INIT_CELL_SIZE = 4`, the bootstrap grid cell edge in degrees. -/
def INIT_CELL_SIZE : ℚ := 4

/-- Closed-interval membership `l ≤ x ≤ l + s` on one axis. -/
def inSeg (l s x : ℚ) : Bool := decide (l ≤ x) && decide (x ≤ l + s)

/-- Membership of a point in the closed rectangle of a cell.  Modelled from
the spec: the API's bounding-box filter is coarse intersection, so a point
geometry is returned exactly when it lies in the closed query rectangle. -/
def inCellB (c : Cell) (p : ℚ × ℚ) : Bool :=
  inSeg c.lon c.size p.1 && inSeg c.lat c.size p.2

/-- Modelled from the spec: one bounded-area query.  A transport error yields
`none`; otherwise the server returns the open notes lying in the cell's closed
rectangle, truncated to the page cap `API_LIMIT`. -/
def fetchCell (w : World) (c : Cell) : Option (List Feature) :=
  if w.netFail c then none
  else some ((w.notes.filter (fun f => inCellB c f.geometry)).take API_LIMIT)

/-- Python-`int()` digit parser: one or more ASCII digits with single
underscores allowed between digits (`acc` is the value of the digits already
consumed). -/
def pyDigitsAux : Nat → List Char → Option Nat
  | acc, [] => some acc
  | acc, c :: cs =>
    if c.isDigit then pyDigitsAux (10 * acc + (c.toNat - 48)) cs
    else if c = '_' then
      match cs with
      | [] => none
      | d :: ds => if d.isDigit then pyDigitsAux (10 * acc + (d.toNat - 48)) ds else none
    else none

/-- Python-`int()` digit run: nonempty, must start with a digit. -/
def pyDigits : List Char → Option Nat
  | [] => none
  | c :: cs => if c.isDigit then pyDigitsAux (c.toNat - 48) cs else none

/-- Python `int(s)` on a string (ASCII model): optional surrounding
whitespace, an optional sign, then digits.  `none` models the raised
`ValueError`. -/
def pyInt (s : List Char) : Option Int :=
  match (s.dropWhile Char.isWhitespace).reverse.dropWhile Char.isWhitespace |>.reverse with
  | '+' :: cs => (pyDigits cs).map (fun n => (n : Int))
  | '-' :: cs => (pyDigits cs).map (fun n => -(n : Int))
  | cs => (pyDigits cs).map (fun n => (n : Int))

/-- Scanner for `re.findall(r'#\S+', text)`, with explicit fuel (one unit per
scan position, so `text.length` always suffices): at each position a `#`
followed by a maximal nonempty run of non-whitespace characters yields a match,
and scanning resumes after the match. -/
def findTagsF : Nat → List Char → List String
  | 0, _ => []
  | _, [] => []
  | fuel + 1, c :: cs =>
    if c = '#' then
      match cs.takeWhile (fun x => !x.isWhitespace) with
      | [] => findTagsF fuel cs
      | tok => String.mk ('#' :: tok) :: findTagsF fuel (cs.drop tok.length)
    else findTagsF fuel cs

/-- `re.findall(r'#\S+', text)`. -/
def findTags (s : List Char) : List String := findTagsF s.length s

/-- A valid iteration order of a Python `set` built from a list: the
enumeration lists exactly the distinct elements, in an order determined by the
(salted) string hashes — i.e. some permutation of them. -/
def SetEnum (enum : List String → List String) : Prop :=
  ∀ l : List String, (enum l).Perm l.dedup

/-- `process_feature` (src/main.py:44-54): normalizes one raw feature in
terms of its first comment.  `enum` is the ambient run's set-iteration order
used by `' '.join(set(re.findall(...)))`.  Failures (`KeyError` on a missing
key, `IndexError` on an empty comment list, `ValueError` from `int`) are
`none`. -/
def process_feature (enum : List String → List String) (f : Feature) : Option Feature :=
  match f.props.comments with
  | none => none
  | some [] => none
  | some (first_comment :: _) =>
    match first_comment.text with
    | none => none
    | some text =>
      match first_comment.date with
      | none => none
      | some date =>
        match pyInt (date.data.take 4) with
        | none => none
        | some year =>
          match f.props.url, f.props.comment_url, f.props.close_url with
          | some _, some _, some _ =>
            some { f with props :=
              { f.props with
                  user := some (first_comment.user.getD "anonymous")
                  text := some text
                  tags := some (String.intercalate " " (enum (findTags text.data)))
                  year := some year
                  url := none
                  comment_url := none
                  close_url := none
                  comments := none } }
          | _, _, _ => none

/-- The per-item keep test of the terminal branch (src/main.py:92):
`feature['properties']['comments'] and country.contains(shape(feature['geometry']))`.
Reading a missing `comments` key raises (`none`); Python's `and`
short-circuits, so `contains` is consulted only on a nonempty comment list. -/
def keepTest (reg : Region) (f : Feature) : Option Bool :=
  match f.props.comments with
  | none => none
  | some cs => some (!cs.isEmpty && reg.contains f.geometry)

/-- The filtering generator of the terminal branch: keep the features passing
`keepTest`, aborting on the first raised error. -/
def filterKeep (reg : Region) : List Feature → Option (List Feature)
  | [] => some []
  | f :: fs =>
    match keepTest reg f, filterKeep reg fs with
    | some b, some rest => some (if b then f :: rest else rest)
    | _, _ => none

/-- Option-valued `map` over a list, failing if any element fails — the
model of running every spawned task to completion, where any raise cancels
the whole task tree. -/
def mapOptM {α β : Type} (g : α → Option β) : List α → Option (List β)
  | [] => some []
  | a :: as =>
    match g a, mapOptM g as with
    | some b, some bs => some (b :: bs)
    | _, _ => none

/-- The four child cells spawned on overflow (src/main.py:82-86): quadrants of
side `size / 2` at offsets `(0,0), (h,0), (0,h), (h,h)` from the parent's
origin, in spawn order. -/
def children (c : Cell) : List Cell :=
  [⟨c.lon, c.lat, c.size / 2⟩,
   ⟨c.lon + c.size / 2, c.lat, c.size / 2⟩,
   ⟨c.lon, c.lat + c.size / 2, c.size / 2⟩,
   ⟨c.lon + c.size / 2, c.lat + c.size / 2, c.size / 2⟩]

/-- `process_cell` (src/main.py:63-95).  Prune cells outside the country;
fetch; on a full page recurse into the four quadrants; otherwise filter and
normalize the page.  The fuel bounds the recursion depth (the source imposes
no bound); `none` is a raised error or exhausted fuel, aborting the run. -/
def process_cell (reg : Region) (enum : List String → List String) (w : World) :
    Nat → Cell → Option (List Feature)
  | 0, _ => none
  | fuel + 1, c =>
    if reg.intersects c then
      match fetchCell w c with
      | none => none
      | some cell_result =>
        if cell_result.length = API_LIMIT then
          match process_cell reg enum w fuel ⟨c.lon, c.lat, c.size / 2⟩,
                process_cell reg enum w fuel ⟨c.lon + c.size / 2, c.lat, c.size / 2⟩,
                process_cell reg enum w fuel ⟨c.lon, c.lat + c.size / 2, c.size / 2⟩,
                process_cell reg enum w fuel ⟨c.lon + c.size / 2, c.lat + c.size / 2, c.size / 2⟩ with
          | some r1, some r2, some r3, some r4 => some (r1 ++ r2 ++ r3 ++ r4)
          | _, _, _, _ => none
        else
          (filterKeep reg cell_result).bind (fun kept => mapOptM (process_feature enum) kept)
    else some []

/-- The bootstrap grid (src/main.py:97-104): ceiling-division tiling of the
country's bounding box by squares of edge `INIT_CELL_SIZE`, outer loop over
longitude columns, inner loop over latitude rows. -/
def bootstrap_cells (reg : Region) : List Cell :=
  let lon_steps := ⌈(reg.maxLon - reg.minLon) / INIT_CELL_SIZE⌉.toNat
  let lat_steps := ⌈(reg.maxLat - reg.minLat) / INIT_CELL_SIZE⌉.toNat
  (List.range lon_steps).flatMap (fun i : ℕ =>
    (List.range lat_steps).map (fun j : ℕ =>
      ⟨reg.minLon + (i : ℚ) * INIT_CELL_SIZE, reg.minLat + (j : ℚ) * INIT_CELL_SIZE,
       INIT_CELL_SIZE⟩))

/-- `_save_result` (src/main.py:32-41) without the file I/O: the artifact's
feature collection is the accumulated features sorted (stably) by
`properties.id`. -/
def save_result (features : List Feature) : List Feature :=
  features.insertionSort (fun a b => a.props.id ≤ b.props.id)

/-- `main` (src/main.py:57-106): run one `process_cell` task per bootstrap
cell, wait for the whole task tree, and save the concatenated results; any
raised error anywhere yields `none` (no artifact). -/
def main (reg : Region) (enum : List String → List String) (w : World) (fuel : Nat) :
    Option (List Feature) :=
  match mapOptM (fun c => process_cell reg enum w fuel c) (bootstrap_cells reg) with
  | none => none
  | some outs => some (save_result outs.flatten)

/-- Number of output records carrying a given note id. -/
def countId (l : List Feature) (i : Int) : Nat :=
  l.countP (fun f => decide (f.props.id = i))

/-- Strict (interior) membership of a point in a cell's rectangle. -/
def strictInCell (c : Cell) (p : ℚ × ℚ) : Prop :=
  c.lon < p.1 ∧ p.1 < c.lon + c.size ∧ c.lat < p.2 ∧ p.2 < c.lat + c.size

/-- The deterministic set-iteration order used by the concrete test runs
below: first-occurrence order of the distinct elements. -/
def dedupEnum : List String → List String := fun l => l.dedup

/-- A note whose first comment is complete and has a well-formed date. -/
def goodNote : Feature :=
  { geometry := (1, 2),
    props := { id := 3, comments := some [⟨none, some "x #t", some "2021-05-06"⟩],
               url := some "u", comment_url := some "c", close_url := some "k",
               user := none, text := none, tags := none, year := none,
               extra := [("status", "open")] } }

/-- The normalized record `process_feature` produces from `goodNote`. -/
def goodNoteOut : Feature :=
  { geometry := (1, 2),
    props := { id := 3, comments := none,
               url := none, comment_url := none, close_url := none,
               user := some "anonymous", text := some "x #t", tags := some "#t",
               year := some 2021, extra := [("status", "open")] } }

/-- A note whose first comment has `text` and `date` present but whose date
does not start with four characters parseable as an integer. -/
def badDateNote : Feature :=
  { geometry := (1, 1),
    props := { id := 5, comments := some [⟨some "bob", some "hello", some "oops"⟩],
               url := some "u", comment_url := some "c", close_url := some "k",
               user := none, text := none, tags := none, year := none, extra := [] } }

/-- A raw item with an empty comment list. -/
def emptyCommentsNote : Feature :=
  { geometry := (2, 2),
    props := { id := 9, comments := some [],
               url := some "u", comment_url := some "c", close_url := some "k",
               user := none, text := none, tags := none, year := none, extra := [] } }

/-- A region accepting everything, with bounding box `(0,0)-(8,8)`. -/
def allReg : Region := ⟨fun _ => true, fun _ => true, 0, 0, 8, 8⟩

/-- A world whose only open note has an unparseable date: normalization
fails, so the whole run fails. -/
def badDateWorld : World := ⟨[badDateNote], fun _ => false⟩

/-- A world holding exactly one good open note, no transport failures. -/
def goodWorld : World := ⟨[goodNote], fun _ => false⟩

/-- Two records that agree on every field except possibly the `tags` string,
which in both is a single-space join of the same set of hashtag tokens (in
possibly different orders). -/
def TagEquiv (f g : Feature) : Prop :=
  f.geometry = g.geometry ∧ f.props.id = g.props.id ∧
  f.props.comments = g.props.comments ∧ f.props.url = g.props.url ∧
  f.props.comment_url = g.props.comment_url ∧ f.props.close_url = g.props.close_url ∧
  f.props.user = g.props.user ∧ f.props.text = g.props.text ∧
  f.props.year = g.props.year ∧ f.props.extra = g.props.extra ∧
  ∃ t1 t2 : List String, t1.Perm t2 ∧
    f.props.tags = some (String.intercalate " " t1) ∧
    g.props.tags = some (String.intercalate " " t2)

/-- A note whose first comment mentions two distinct hashtags. -/
def twoTagNote : Feature :=
  { geometry := (1, 1),
    props := { id := 11, comments := some [⟨some "eve", some "see #a #b", some "2023-03-04"⟩],
               url := some "u", comment_url := some "c", close_url := some "k",
               user := none, text := none, tags := none, year := none, extra := [] } }

/-- The world used by the C4 counterexample. -/
def twoTagWorld : World := ⟨[twoTagNote], fun _ => false⟩

/-- The reversed set-iteration order: a run whose salted hashes enumerate the
tag set backwards. -/
def revEnum : List String → List String := fun l => l.dedup.reverse

/-- `twoTagNote` normalized under `dedupEnum`: tags `"#a #b"`. -/
def twoTagOutAB : Feature :=
  { geometry := (1, 1),
    props := { id := 11, comments := none, url := none, comment_url := none, close_url := none,
               user := some "eve", text := some "see #a #b", tags := some "#a #b",
               year := some 2023, extra := [] } }

/-- `twoTagNote` normalized under `revEnum`: tags `"#b #a"`. -/
def twoTagOutBA : Feature :=
  { geometry := (1, 1),
    props := { id := 11, comments := none, url := none, comment_url := none, close_url := none,
               user := some "eve", text := some "see #a #b", tags := some "#b #a",
               year := some 2023, extra := [] } }

/-- The point lies on no edge line of the cell or of any of its dyadic
descendants: for every depth `d`, its coordinates avoid the lattice of pitch
`size / 2^d` anchored at the cell's origin. -/
def OffGrid (c : Cell) (p : ℚ × ℚ) : Prop :=
  ∀ (d : ℕ) (k : ℤ), p.1 ≠ c.lon + (k : ℚ) * (c.size / 2 ^ d) ∧
    p.2 ≠ c.lat + (k : ℚ) * (c.size / 2 ^ d)

/-- The point avoids every line of the global dyadic grid anchored at the
bounding-box corner with base pitch `INIT_CELL_SIZE`: no processed cell ever
has it on its boundary. -/
def OffGridG (reg : Region) (p : ℚ × ℚ) : Prop :=
  ∀ (d : ℕ) (k : ℤ), p.1 ≠ reg.minLon + (k : ℚ) * (INIT_CELL_SIZE / 2 ^ d) ∧
    p.2 ≠ reg.minLat + (k : ℚ) * (INIT_CELL_SIZE / 2 ^ d)

/-- Indicator of a boolean. -/
def bi (b : Bool) : Nat := if b then 1 else 0

/-- A note sitting exactly on the shared edge `lon = 4` of the bootstrap
cells `(0,0,4)` and `(4,0,4)` of the `(0,0)-(8,8)` box. -/
def edgeNote : Feature :=
  { geometry := (4, 1),
    props := { id := 7, comments := some [⟨some "alice", some "boundary", some "2024-01-02"⟩],
               url := some "u", comment_url := some "c", close_url := some "k",
               user := none, text := none, tags := none, year := none, extra := [] } }

/-- The world holding only `edgeNote`. -/
def edgeWorld : World := ⟨[edgeNote], fun _ => false⟩

/-- `edgeNote` normalized. -/
def edgeOut : Feature :=
  { geometry := (4, 1),
    props := { id := 7, comments := none, url := none, comment_url := none, close_url := none,
               user := some "alice", text := some "boundary", tags := some "",
               year := some 2024, extra := [] } }

/-- An off-lattice note strictly inside the box. -/
def thirdNote : Feature :=
  { geometry := (1/3, 1/3),
    props := { id := 7, comments := some [⟨some "bob", some "in", some "2024-01-02"⟩],
               url := some "u", comment_url := some "c", close_url := some "k",
               user := none, text := none, tags := none, year := none, extra := [] } }

/-- The world holding only `thirdNote`. -/
def thirdWorld : World := ⟨[thirdNote], fun _ => false⟩

/-- `thirdNote` normalized. -/
def thirdOut : Feature :=
  { geometry := (1/3, 1/3),
    props := { id := 7, comments := none, url := none, comment_url := none, close_url := none,
               user := some "bob", text := some "in", tags := some "",
               year := some 2024, extra := [] } }

/-! ## Theorems -/


/-! ### Basic facts about `process_feature` -/

/-- A successful normalization keeps the note's id and geometry and has
dropped the `comments` key. -/
lemma process_feature_spec {enum : List String → List String} {f g : Feature}
    (h : process_feature enum f = some g) :
    g.props.id = f.props.id ∧ g.geometry = f.geometry ∧ g.props.comments = none := by
  unfold process_feature at h
  repeat' split at h
  all_goals first
    | exact Option.noConfusion h
    | (injection h with h2; subst h2; exact ⟨rfl, rfl, rfl⟩)

/-! ### C7 — fields derived from the first comment only -/

/-- C7: for a raw item whose nonempty comment list starts with a comment
carrying `text` and `date`, normalization (1) fails with no fallback when the
first 4 characters of the date do not parse as an integer, (2) on success
produces `user` from the first comment's author with sentinel `"anonymous"`,
`text` from its body and `year` from the parsed date prefix, and (3) depends
on the first comment only — later comments are ignored. -/
theorem c7_first_comment_fields (enum : List String → List String) (f : Feature)
    (first : Comment) (rest : List Comment) (t d : String)
    (hcm : f.props.comments = some (first :: rest))
    (ht : first.text = some t) (hd : first.date = some d) :
    (pyInt (d.data.take 4) = none → process_feature enum f = none) ∧
    (∀ y : Int, pyInt (d.data.take 4) = some y →
      ∀ g : Feature, process_feature enum f = some g →
        g.props.user = some (first.user.getD "anonymous") ∧
        g.props.text = some t ∧ g.props.year = some y) ∧
    process_feature enum f
      = process_feature enum { f with props := { f.props with comments := some [first] } } := by
  refine ⟨fun hy => ?_, fun y hy g hg => ?_, ?_⟩
  · simp only [process_feature, hcm, ht, hd, hy]
  · simp only [process_feature, hcm, ht, hd, hy] at hg
    repeat' split at hg
    all_goals first
      | exact Option.noConfusion hg
      | (injection hg with h2; subst h2; exact ⟨rfl, rfl, rfl⟩)
  · simp only [process_feature, hcm]

/-- Witness for C7 at `goodNote`. -/
theorem c7_first_comment_fields_witness :
    goodNoteOut.props.user = some "anonymous" ∧
    goodNoteOut.props.text = some "x #t" ∧ goodNoteOut.props.year = some 2021 :=
  (c7_first_comment_fields dedupEnum goodNote ⟨none, some "x #t", some "2021-05-06"⟩ []
      "x #t" "2021-05-06" (by with_unfolding_all rfl) rfl rfl).2.1 2021
    (by with_unfolding_all rfl) goodNoteOut (by with_unfolding_all rfl)

/-! ### C10 — the frame effect of `process_feature` -/

/-- C10 (amended): under the additional hypotheses that the first comment's
date prefix parses as an integer and that the transport keys `url`,
`comment_url`, `close_url` are present (the API always sends them; `del`
raises otherwise), `process_feature` returns the feature with exactly
`user`, `text`, `tags`, `year` set, exactly `url`, `comment_url`,
`close_url`, `comments` removed, and id, geometry and all other properties
unchanged.  (The Python function performs this as an in-place mutation and
returns the same dict object; aliasing itself is outside this pure model.) -/
theorem c10_frame_effect (enum : List String → List String) (f : Feature)
    (first : Comment) (rest : List Comment) (t d : String) (y : Int) (u cu xu : String)
    (hcm : f.props.comments = some (first :: rest))
    (ht : first.text = some t) (hd : first.date = some d)
    (hy : pyInt (d.data.take 4) = some y)
    (hu : f.props.url = some u) (hcu : f.props.comment_url = some cu)
    (hxu : f.props.close_url = some xu) :
    ∃ g : Feature, process_feature enum f = some g ∧
      g.geometry = f.geometry ∧
      g.props.id = f.props.id ∧
      g.props.extra = f.props.extra ∧
      g.props.user = some (first.user.getD "anonymous") ∧
      g.props.text = some t ∧
      g.props.tags = some (String.intercalate " " (enum (findTags t.data))) ∧
      g.props.year = some y ∧
      g.props.url = none ∧
      g.props.comment_url = none ∧
      g.props.close_url = none ∧
      g.props.comments = none := by
  simp only [process_feature, hcm, ht, hd, hy, hu, hcu, hxu]
  exact ⟨_, rfl, rfl, rfl, rfl, rfl, rfl, rfl, rfl, rfl, rfl, rfl, rfl⟩

/-- Counterexample to C10 as stated: `badDateNote` has a nonempty comment
list whose first comment has `text` and `date` entries, yet `process_feature`
raises (`int('oops')`) instead of producing the mutated feature. -/
theorem c10_counterexample :
    badDateNote.props.comments = some [⟨some "bob", some "hello", some "oops"⟩] ∧
    process_feature dedupEnum badDateNote = none :=
  ⟨by with_unfolding_all rfl, by with_unfolding_all rfl⟩

/-- Witness for C10 at `goodNote`. -/
theorem c10_frame_effect_witness :
    (process_feature dedupEnum goodNote).isSome = true := by
  obtain ⟨g, hg, -⟩ :=
    c10_frame_effect dedupEnum goodNote ⟨none, some "x #t", some "2021-05-06"⟩ []
      "x #t" "2021-05-06" 2021 "u" "c" "k" rfl rfl rfl
      (by with_unfolding_all rfl) rfl rfl rfl
  rw [hg]
  rfl

/-! ### C5 — normalization is not idempotent under composition -/

/-- C5 (amended): normalization deletes the `comments` key, so applying
`process_feature` to a successfully normalized record always fails (under any
set-iteration order) instead of reproducing it. -/
theorem c5_renormalize_fails (e1 e2 : List String → List String) (f g : Feature)
    (h : process_feature e1 f = some g) : process_feature e2 g = none := by
  have hg : g.props.comments = none := (process_feature_spec h).2.2
  unfold process_feature
  rw [hg]

/-- Counterexample to C5 as stated: normalizing `goodNote` succeeds, but
normalizing the result raises `KeyError: 'comments'` (here: `none`) rather
than yielding the same record again. -/
theorem c5_counterexample :
    (process_feature dedupEnum goodNote).isSome = true ∧
    (process_feature dedupEnum goodNote).bind (process_feature dedupEnum) = none :=
  ⟨by with_unfolding_all rfl, by with_unfolding_all rfl⟩

/-- Witness for C5 (amended) at `goodNote`. -/
theorem c5_renormalize_fails_witness :
    process_feature dedupEnum goodNoteOut = none :=
  c5_renormalize_fails dedupEnum dedupEnum goodNote goodNoteOut (by with_unfolding_all rfl)

/-! ### C9 — items with an empty comment list are silently skipped -/

/-- C9: an item with an empty comment list fails the keep test without any
error (`contains` is not even consulted), and removing it from a fetched page
leaves the filtering of every other item unchanged. -/
theorem c9_empty_comments_skipped (reg : Region) (f : Feature) (l1 l2 : List Feature)
    (hf : f.props.comments = some []) :
    keepTest reg f = some false ∧
    filterKeep reg (l1 ++ f :: l2) = filterKeep reg (l1 ++ l2) := by
  have hk : keepTest reg f = some false := by
    unfold keepTest; rw [hf]; rfl
  refine ⟨hk, ?_⟩
  induction l1 with
  | nil =>
    show (match keepTest reg f, filterKeep reg l2 with
          | some b, some rest => some (if b then f :: rest else rest)
          | _, _ => none) = filterKeep reg l2
    rw [hk]
    cases hr : filterKeep reg l2 <;> simp
  | cons a t ih =>
    show (match keepTest reg a, filterKeep reg (t ++ f :: l2) with
          | some b, some rest => some (if b then a :: rest else rest)
          | _, _ => none)
        = (match keepTest reg a, filterKeep reg (t ++ l2) with
          | some b, some rest => some (if b then a :: rest else rest)
          | _, _ => none)
    rw [ih]

/-- Witness for C9: dropping `emptyCommentsNote` from a concrete page leaves
filtering unchanged and raises nothing. -/
theorem c9_empty_comments_skipped_witness :
    keepTest allReg emptyCommentsNote = some false ∧
    filterKeep allReg ([goodNote] ++ emptyCommentsNote :: [badDateNote])
      = filterKeep allReg ([goodNote] ++ [badDateNote]) :=
  c9_empty_comments_skipped allReg emptyCommentsNote [goodNote] [badDateNote] rfl

/-! ### Facts about `mapOptM` -/

lemma mapOptM_eq_none_iff {α β : Type} (g : α → Option β) (l : List α) :
    mapOptM g l = none ↔ ∃ a ∈ l, g a = none := by
  induction l with
  | nil => simp [mapOptM]
  | cons a t ih =>
    constructor
    · intro h
      simp only [mapOptM] at h
      cases hg : g a with
      | none => exact ⟨a, List.mem_cons_self a t, hg⟩
      | some b =>
        rw [hg] at h
        cases ht : mapOptM g t with
        | none =>
          obtain ⟨x, hx, hgx⟩ := ih.mp ht
          exact ⟨x, List.mem_cons_of_mem a hx, hgx⟩
        | some bs => rw [ht] at h; exact absurd h (by simp)
    · rintro ⟨x, hx, hgx⟩
      simp only [mapOptM]
      rcases List.mem_cons.mp hx with rfl | hx2
      · rw [hgx]
      · rw [ih.mpr ⟨x, hx2, hgx⟩]
        cases g a <;> rfl

/-- Every element of a `mapOptM`-produced list comes from applying `g`
successfully to some element of the input list. -/
lemma mapOptM_mem {α β : Type} {g : α → Option β} :
    ∀ {l : List α} {r : List β}, mapOptM g l = some r →
      ∀ b ∈ r, ∃ a ∈ l, g a = some b := by
  intro l
  induction l with
  | nil => intro r h b hb; injection h with h2; subst h2; exact absurd hb (by simp)
  | cons a t ih =>
    intro r h b hb
    simp only [mapOptM] at h
    cases hg : g a with
    | none => rw [hg] at h; exact Option.noConfusion h
    | some b2 =>
      rw [hg] at h
      cases ht : mapOptM g t with
      | none => rw [ht] at h; exact Option.noConfusion h
      | some bs =>
        rw [ht] at h
        injection h with h2
        subst h2
        rcases List.mem_cons.mp hb with rfl | hb2
        · exact ⟨a, List.mem_cons_self a t, hg⟩
        · obtain ⟨x, hx, hgx⟩ := ih ht b hb2
          exact ⟨x, List.mem_cons_of_mem a hx, hgx⟩

/-! ### C2 — subdivision happens iff the page cap is hit, and tiles exactly -/

/-- C2: the four children of a cell are the quadrants of side `size / 2` at
offsets `(0,0), (h,0), (0,h), (h,h)`; together they cover exactly the
parent's closed rectangle and their interiors are pairwise disjoint; and one
step of `process_cell` recurses on exactly these children iff the fetched
page has exactly `API_LIMIT` items, processing the page terminally (no
children) otherwise. -/
theorem c2_subdivision_exact (c : Cell) :
    children c = [⟨c.lon, c.lat, c.size / 2⟩, ⟨c.lon + c.size / 2, c.lat, c.size / 2⟩,
                  ⟨c.lon, c.lat + c.size / 2, c.size / 2⟩,
                  ⟨c.lon + c.size / 2, c.lat + c.size / 2, c.size / 2⟩] ∧
    (∀ ch ∈ children c, ch.size = c.size / 2) ∧
    (∀ p : ℚ × ℚ, inCellB c p = true ↔ ∃ ch ∈ children c, inCellB ch p = true) ∧
    List.Pairwise (fun a b => ∀ p : ℚ × ℚ, ¬(strictInCell a p ∧ strictInCell b p))
      (children c) ∧
    (∀ (reg : Region) (enum : List String → List String) (w : World) (fuel : Nat)
        (items : List Feature),
      reg.intersects c = true → fetchCell w c = some items →
      ((items.length = API_LIMIT →
          process_cell reg enum w (fuel + 1) c
            = (mapOptM (process_cell reg enum w fuel) (children c)).map List.flatten) ∧
       (items.length ≠ API_LIMIT →
          process_cell reg enum w (fuel + 1) c
            = (filterKeep reg items).bind (fun kept => mapOptM (process_feature enum) kept)))) := by
  refine ⟨rfl, ?_, ?_, ?_, ?_⟩
  · intro ch hch
    simp only [children, List.mem_cons, List.not_mem_nil, or_false] at hch
    rcases hch with rfl | rfl | rfl | rfl <;> rfl
  · intro p
    simp only [children, inCellB, inSeg, List.mem_cons, List.not_mem_nil, or_false,
      Bool.and_eq_true, decide_eq_true_eq]
    constructor
    · rintro ⟨⟨hx1, hx2⟩, hy1, hy2⟩
      rcases le_total p.1 (c.lon + c.size / 2) with hx | hx <;>
        rcases le_total p.2 (c.lat + c.size / 2) with hy | hy
      · exact ⟨_, Or.inl rfl, ⟨hx1, hx⟩, hy1, hy⟩
      · exact ⟨_, Or.inr (Or.inr (Or.inl rfl)), ⟨hx1, hx⟩, hy, by linarith⟩
      · exact ⟨_, Or.inr (Or.inl rfl), ⟨hx, by linarith⟩, hy1, hy⟩
      · exact ⟨_, Or.inr (Or.inr (Or.inr rfl)), ⟨hx, by linarith⟩, hy, by linarith⟩
    · rintro ⟨ch, hch, ⟨hx1, hx2⟩, hy1, hy2⟩
      rcases hch with rfl | rfl | rfl | rfl <;>
        exact ⟨⟨by linarith, by linarith⟩, by linarith, by linarith⟩
  · have disj : ∀ a b : Cell,
        (a.lon + a.size ≤ b.lon ∨ b.lon + b.size ≤ a.lon ∨
         a.lat + a.size ≤ b.lat ∨ b.lat + b.size ≤ a.lat) →
        ∀ p : ℚ × ℚ, ¬(strictInCell a p ∧ strictInCell b p) := by
      rintro a b h p ⟨⟨ha1, ha2, ha3, ha4⟩, hb1, hb2, hb3, hb4⟩
      rcases h with h | h | h | h <;> linarith
    have memcase : ∀ {b : Cell} {x y z : Cell}, b ∈ [x, y, z] → b = x ∨ b = y ∨ b = z := by
      intro b x y z hb
      simpa using hb
    refine List.Pairwise.cons ?_ (List.Pairwise.cons ?_ (List.Pairwise.cons ?_
      (List.Pairwise.cons (fun b hb => absurd hb (List.not_mem_nil b)) List.Pairwise.nil)))
    · intro b hb
      rcases memcase hb with rfl | rfl | rfl
      · exact disj _ _ (Or.inl (le_of_eq (by ring)))
      · exact disj _ _ (Or.inr (Or.inr (Or.inl (le_of_eq (by ring)))))
      · exact disj _ _ (Or.inl (le_of_eq (by ring)))
    · intro b hb
      rcases List.mem_cons.mp hb with rfl | hb2
      · exact disj _ _ (Or.inr (Or.inl (le_of_eq (by ring))))
      rcases List.mem_cons.mp hb2 with rfl | hb3
      · exact disj _ _ (Or.inr (Or.inr (Or.inl (le_of_eq (by ring)))))
      · exact absurd hb3 (List.not_mem_nil b)
    · intro b hb
      rcases List.mem_cons.mp hb with rfl | hb2
      · exact disj _ _ (Or.inl (le_of_eq (by ring)))
      · exact absurd hb2 (List.not_mem_nil b)
  · intro reg enum w fuel items hint hfc
    constructor
    · intro hlen
      simp only [process_cell, hint, if_true, hfc, hlen, if_pos rfl]
      rcases h1 : process_cell reg enum w fuel ⟨c.lon, c.lat, c.size / 2⟩ with _ | r1 <;>
        rcases h2 : process_cell reg enum w fuel ⟨c.lon + c.size / 2, c.lat, c.size / 2⟩
          with _ | r2 <;>
        rcases h3 : process_cell reg enum w fuel ⟨c.lon, c.lat + c.size / 2, c.size / 2⟩
          with _ | r3 <;>
        rcases h4 : process_cell reg enum w fuel
            ⟨c.lon + c.size / 2, c.lat + c.size / 2, c.size / 2⟩ with _ | r4 <;>
        simp [children, mapOptM, h1, h2, h3, h4]
    · intro hlen
      simp [process_cell, hint, hfc, hlen]

/-- Witness for C2 at the cell `(0, 0, 4)`: its children. -/
theorem c2_subdivision_exact_witness :
    children ⟨0, 0, 4⟩ = [⟨0, 0, 2⟩, ⟨2, 0, 2⟩, ⟨0, 2, 2⟩, ⟨2, 2, 2⟩] := by
  rw [(c2_subdivision_exact ⟨0, 0, 4⟩).1]
  with_unfolding_all rfl

/-! ### C8 — all-or-nothing: any raised error anywhere yields no artifact -/

/-- C8: (1) if any bootstrap cell's task fails, `main` produces no artifact
and all partial results are discarded; (2) an artifact is produced only when
every cell of the task tree succeeded; (3) a transport error on an
intersecting cell fails that cell's task; (4) a normalization error on any
kept item of a terminal page fails that cell's task. -/
theorem c8_all_or_nothing (reg : Region) (enum : List String → List String) (w : World)
    (fuel : Nat) :
    (∀ c ∈ bootstrap_cells reg, process_cell reg enum w fuel c = none →
        main reg enum w fuel = none) ∧
    (∀ out : List Feature, main reg enum w fuel = some out →
        ∀ c ∈ bootstrap_cells reg, ∃ r, process_cell reg enum w fuel c = some r) ∧
    (∀ (c : Cell) (fl : Nat), reg.intersects c = true → fetchCell w c = none →
        process_cell reg enum w (fl + 1) c = none) ∧
    (∀ (c : Cell) (fl : Nat) (items kept : List Feature),
        reg.intersects c = true → fetchCell w c = some items →
        items.length ≠ API_LIMIT → filterKeep reg items = some kept →
        (∃ g ∈ kept, process_feature enum g = none) →
        process_cell reg enum w (fl + 1) c = none) := by
  refine ⟨?_, ?_, ?_, ?_⟩
  · intro c hc hpc
    unfold main
    rw [(mapOptM_eq_none_iff _ _).mpr ⟨c, hc, hpc⟩]
  · intro out hmain c hc
    cases hpc : process_cell reg enum w fuel c with
    | none =>
      exfalso
      unfold main at hmain
      rw [(mapOptM_eq_none_iff _ _).mpr ⟨c, hc, hpc⟩] at hmain
      exact Option.noConfusion hmain
    | some r => exact ⟨r, rfl⟩
  · intro c fl hint hfc
    simp [process_cell, hint, hfc]
  · intro c fl items kept hint hfc hlen hfk hbad
    simp only [process_cell, hint, if_true, hfc, hlen, if_neg hlen]
    rw [hfk]
    exact (mapOptM_eq_none_iff _ _).mpr hbad

/-- Witness for C8: the run over `badDateWorld` produces no artifact. -/
theorem c8_all_or_nothing_witness :
    main allReg dedupEnum badDateWorld 1 = none :=
  (c8_all_or_nothing allReg dedupEnum badDateWorld 1).1 ⟨0, 0, 4⟩
    (of_decide_eq_true (by with_unfolding_all rfl))
    (by with_unfolding_all rfl)

/-! ### C6 — the bootstrap grid covers the bounding box -/

/-- Grid cell `(i, j)` of the bootstrap grid is generated whenever its
indices are below the ceiling-division step counts. -/
lemma mem_bootstrap_cells (reg : Region) (i j : ℕ)
    (hi : i < ⌈(reg.maxLon - reg.minLon) / INIT_CELL_SIZE⌉.toNat)
    (hj : j < ⌈(reg.maxLat - reg.minLat) / INIT_CELL_SIZE⌉.toNat) :
    (⟨reg.minLon + i * INIT_CELL_SIZE, reg.minLat + j * INIT_CELL_SIZE, INIT_CELL_SIZE⟩ : Cell)
      ∈ bootstrap_cells reg := by
  unfold bootstrap_cells
  exact List.mem_flatMap.mpr ⟨i, List.mem_range.mpr hi,
    List.mem_map_of_mem _ (List.mem_range.mpr hj)⟩

/-- One axis of grid coverage: any coordinate in `[m, M]` lies in the closed
interval of some column `i` below the ceiling-division step count (the last,
possibly partial, column catches `x = M` on its right edge). -/
lemma exists_col (m M x : ℚ) (hmM : m < M) (h1 : m ≤ x) (h2 : x ≤ M) :
    ∃ i : ℕ, i < ⌈(M - m) / INIT_CELL_SIZE⌉.toNat ∧
      m + i * INIT_CELL_SIZE ≤ x ∧ x ≤ m + i * INIT_CELL_SIZE + INIT_CELL_SIZE := by
  have hICS : INIT_CELL_SIZE = (4 : ℚ) := rfl
  rw [hICS] at *
  set steps : ℕ := ⌈(M - m) / 4⌉.toNat with hsteps
  have hc : (0 : ℤ) < ⌈(M - m) / 4⌉ :=
    Int.ceil_pos.mpr (div_pos (by linarith) (by norm_num))
  have hcast : ((steps : ℤ) : ℚ) = (⌈(M - m) / 4⌉ : ℚ) := by
    rw [hsteps, Int.toNat_of_nonneg hc.le]
  have hle : (M - m) / 4 ≤ (⌈(M - m) / 4⌉ : ℚ) := Int.le_ceil _
  have hceil : M - m ≤ (steps : ℚ) * 4 := by
    have h4 : (M - m) / 4 * 4 ≤ (⌈(M - m) / 4⌉ : ℚ) * 4 :=
      mul_le_mul_of_nonneg_right hle (by norm_num)
    calc M - m = (M - m) / 4 * 4 := by ring
      _ ≤ (⌈(M - m) / 4⌉ : ℚ) * 4 := h4
      _ = (steps : ℚ) * 4 := by rw [← hcast]; push_cast; ring
  have hst1 : 1 ≤ steps := by omega
  by_cases hx : x < m + (steps : ℚ) * 4
  · set q : ℤ := ⌊(x - m) / 4⌋ with hq
    have hq0 : 0 ≤ q := Int.floor_nonneg.mpr (div_nonneg (by linarith) (by norm_num))
    have hfl : (q : ℚ) ≤ (x - m) / 4 := Int.floor_le _
    have hfu : (x - m) / 4 < (q : ℚ) + 1 := Int.lt_floor_add_one _
    have hql : (q : ℚ) * 4 ≤ x - m := by
      have := mul_le_mul_of_nonneg_right hfl (by norm_num : (0:ℚ) ≤ 4)
      calc (q : ℚ) * 4 ≤ (x - m) / 4 * 4 := this
        _ = x - m := by ring
    have hqu : x - m < ((q : ℚ) + 1) * 4 := by
      have := mul_lt_mul_of_pos_right hfu (by norm_num : (0:ℚ) < 4)
      calc x - m = (x - m) / 4 * 4 := by ring
        _ < ((q : ℚ) + 1) * 4 := this
    have hqsteps : q < (steps : ℤ) := by
      have h4 : (q : ℚ) * 4 < (steps : ℚ) * 4 := by linarith
      exact_mod_cast lt_of_mul_lt_mul_right h4 (by norm_num : (0:ℚ) ≤ 4)
    refine ⟨q.toNat, by omega, ?_, ?_⟩
    · have : ((q.toNat : ℕ) : ℚ) = (q : ℚ) := by
        rw [show ((q.toNat : ℕ) : ℚ) = (((q.toNat : ℕ) : ℤ) : ℚ) by push_cast; ring,
          Int.toNat_of_nonneg hq0]
      rw [this]; linarith
    · have : ((q.toNat : ℕ) : ℚ) = (q : ℚ) := by
        rw [show ((q.toNat : ℕ) : ℚ) = (((q.toNat : ℕ) : ℤ) : ℚ) by push_cast; ring,
          Int.toNat_of_nonneg hq0]
      rw [this]; linarith
  · have hxe : x = m + (steps : ℚ) * 4 := le_antisymm (by linarith) (not_lt.mp hx)
    refine ⟨steps - 1, by omega, ?_, ?_⟩ <;>
      rw [show ((steps - 1 : ℕ) : ℚ) = (steps : ℚ) - 1 by
        have : ((steps - 1 : ℕ) : ℚ) = ((steps : ℕ) : ℚ) - ((1 : ℕ) : ℚ) := by
          push_cast [hst1]; ring
        simpa using this] <;>
      linarith

/-- C6: the bootstrap grid of `INIT_CELL_SIZE`-sized squares, computed by
ceiling division of the (nondegenerate) bounding box extents, covers every
point of `[minLon,maxLon] × [minLat,maxLat]` even when the last row or column
is partial; and for the bounding box `(0,0)-(8,8)` it generates exactly the
four cells `(0,0,4), (0,4,4), (4,0,4), (4,4,4)` (in the code's loop order). -/
theorem c6_bootstrap_grid (reg : Region) (p : ℚ × ℚ)
    (hlon : reg.minLon < reg.maxLon) (hlat : reg.minLat < reg.maxLat)
    (hx1 : reg.minLon ≤ p.1) (hx2 : p.1 ≤ reg.maxLon)
    (hy1 : reg.minLat ≤ p.2) (hy2 : p.2 ≤ reg.maxLat) :
    (∃ c ∈ bootstrap_cells reg, inCellB c p = true) ∧
    bootstrap_cells allReg = [⟨0, 0, 4⟩, ⟨0, 4, 4⟩, ⟨4, 0, 4⟩, ⟨4, 4, 4⟩] := by
  refine ⟨?_, by with_unfolding_all rfl⟩
  obtain ⟨i, hi, hix1, hix2⟩ := exists_col reg.minLon reg.maxLon p.1 hlon hx1 hx2
  obtain ⟨j, hj, hjy1, hjy2⟩ := exists_col reg.minLat reg.maxLat p.2 hlat hy1 hy2
  refine ⟨_, mem_bootstrap_cells reg i j hi hj, ?_⟩
  simp only [inCellB, inSeg, Bool.and_eq_true, decide_eq_true_eq]
  exact ⟨⟨hix1, hix2⟩, hjy1, hjy2⟩

/-- Witness for C6 at the box `(0,0)-(8,8)` and the point `(5,3)`. -/
theorem c6_bootstrap_grid_witness :
    (∃ c ∈ bootstrap_cells allReg, inCellB c ((5 : ℚ), (3 : ℚ)) = true) ∧
    bootstrap_cells allReg = [⟨0, 0, 4⟩, ⟨0, 4, 4⟩, ⟨4, 0, 4⟩, ⟨4, 4, 4⟩] :=
  c6_bootstrap_grid allReg (5, 3)
    (of_decide_eq_true (by with_unfolding_all rfl))
    (of_decide_eq_true (by with_unfolding_all rfl))
    (of_decide_eq_true (by with_unfolding_all rfl))
    (of_decide_eq_true (by with_unfolding_all rfl))
    (of_decide_eq_true (by with_unfolding_all rfl))
    (of_decide_eq_true (by with_unfolding_all rfl))

/-! ### C3 — every output record lies inside the region polygon -/

/-- Every feature surviving the keep test satisfies the containment check. -/
lemma filterKeep_contains {reg : Region} :
    ∀ {l r : List Feature}, filterKeep reg l = some r →
      ∀ f ∈ r, reg.contains f.geometry = true := by
  intro l
  induction l with
  | nil =>
    intro r h f hf
    injection h with h2
    subst h2
    exact absurd hf (List.not_mem_nil f)
  | cons a t ih =>
    intro r h f hf
    simp only [filterKeep] at h
    cases hk : keepTest reg a with
    | none => rw [hk] at h; exact Option.noConfusion h
    | some b =>
      rw [hk] at h
      cases hr : filterKeep reg t with
      | none => rw [hr] at h; exact Option.noConfusion h
      | some rest =>
        rw [hr] at h
        injection h with h2
        subst h2
        cases b with
        | false =>
          simp only [if_neg Bool.false_ne_true] at hf
          exact ih hr f hf
        | true =>
          simp only [if_pos rfl] at hf
          rcases List.mem_cons.mp hf with rfl | hf2
          · unfold keepTest at hk
            cases hcs : f.props.comments with
            | none => rw [hcs] at hk; exact Option.noConfusion hk
            | some cs =>
              rw [hcs] at hk
              injection hk with hk2
              exact (Bool.and_eq_true _ _ |>.mp hk2).2
          · exact ih hr f hf2

/-- Any record produced by a cell's task has its geometry inside the region:
the per-item containment check runs in every terminal branch, at every
depth. -/
lemma process_cell_contains (reg : Region) (enum : List String → List String) (w : World) :
    ∀ (fuel : Nat) (c : Cell) (out : List Feature),
      process_cell reg enum w fuel c = some out →
      ∀ f ∈ out, reg.contains f.geometry = true := by
  intro fuel
  induction fuel with
  | zero => intro c out h; exact Option.noConfusion h
  | succ n ih =>
    intro c out h f hf
    simp only [process_cell] at h
    by_cases hint : reg.intersects c = true
    · rw [if_pos hint] at h
      split at h
      · exact Option.noConfusion h
      · rename_i items hfc
        split at h
        · split at h
          · rename_i r1 r2 r3 r4 h1 h2 h3 h4
            injection h with h5
            subst h5
            rcases List.mem_append.mp hf with hf1 | hf4
            rcases List.mem_append.mp hf1 with hf2 | hf3
            rcases List.mem_append.mp hf2 with hfa | hfb
            · exact ih _ _ h1 f hfa
            · exact ih _ _ h2 f hfb
            · exact ih _ _ h3 f hf3
            · exact ih _ _ h4 f hf4
          · exact Option.noConfusion h
        · obtain ⟨kept, hfk, hmap⟩ := Option.bind_eq_some.mp h
          obtain ⟨g, hg, hgf⟩ := mapOptM_mem hmap f hf
          rw [(process_feature_spec hgf).2.1]
          exact filterKeep_contains hfk g hg
    · rw [if_neg hint] at h
      injection h with h2
      subst h2
      exact absurd hf (List.not_mem_nil f)

/-- C3: every record in the final artifact has a geometry the region
contains — the containment invariant of the output set. -/
theorem c3_containment_invariant (reg : Region) (enum : List String → List String)
    (w : World) (fuel : Nat) (out : List Feature) (f : Feature)
    (hrun : main reg enum w fuel = some out) (hf : f ∈ out) :
    reg.contains f.geometry = true := by
  unfold main at hrun
  cases hm : mapOptM (fun c => process_cell reg enum w fuel c) (bootstrap_cells reg) with
  | none => rw [hm] at hrun; exact Option.noConfusion hrun
  | some outs =>
    rw [hm] at hrun
    injection hrun with h2
    subst h2
    unfold save_result at hf
    have hmem : f ∈ outs.flatten :=
      (List.perm_insertionSort (fun a b => a.props.id ≤ b.props.id) outs.flatten).mem_iff.mp hf
    obtain ⟨l, hl, hfl⟩ := List.mem_flatten.mp hmem
    obtain ⟨c, _, hcl⟩ := mapOptM_mem hm l hl
    exact process_cell_contains reg enum w fuel c l hcl f hfl

/-! ### C4 — determinism of the artifact, up to hashtag iteration order -/

/-- Normalizing the same raw item under two valid set-iteration orders gives
records equal in every derived field except the `tags` join order. -/
lemma process_feature_tagEquiv {e1 e2 : List String → List String}
    (he1 : SetEnum e1) (he2 : SetEnum e2) {f g1 g2 : Feature}
    (h1 : process_feature e1 f = some g1) (h2 : process_feature e2 f = some g2) :
    TagEquiv g1 g2 := by
  unfold process_feature at h1 h2
  cases hcm : f.props.comments with
  | none => rw [hcm] at h1; exact Option.noConfusion h1
  | some cs =>
    simp only [hcm] at h1 h2
    cases cs with
    | nil => exact Option.noConfusion h1
    | cons first rest =>
      cases ht : first.text with
      | none => simp only [ht] at h1; exact Option.noConfusion h1
      | some t =>
        simp only [ht] at h1 h2
        cases hd : first.date with
        | none => simp only [hd] at h1; exact Option.noConfusion h1
        | some d =>
          simp only [hd] at h1 h2
          cases hy : pyInt (d.data.take 4) with
          | none => simp only [hy] at h1; exact Option.noConfusion h1
          | some y =>
            simp only [hy] at h1 h2
            cases hu : f.props.url with
            | none => simp only [hu] at h1; exact Option.noConfusion h1
            | some u =>
              simp only [hu] at h1 h2
              cases hcu : f.props.comment_url with
              | none => simp only [hcu] at h1; exact Option.noConfusion h1
              | some cu =>
                simp only [hcu] at h1 h2
                cases hxu : f.props.close_url with
                | none => simp only [hxu] at h1; exact Option.noConfusion h1
                | some xu =>
                  simp only [hxu] at h1 h2
                  injection h1 with h1e
                  injection h2 with h2e
                  subst h1e h2e
                  refine ⟨rfl, rfl, rfl, rfl, rfl, rfl, rfl, rfl, rfl, rfl,
                    e1 (findTags t.data), e2 (findTags t.data), ?_, rfl, rfl⟩
                  exact (he1 (findTags t.data)).trans (he2 (findTags t.data)).symm

/-- `mapOptM` preserves a pointwise relation between two runs. -/
lemma mapOptM_forall2 {α β : Type} (R : β → β → Prop) (g1 g2 : α → Option β)
    (hg : ∀ a b1 b2, g1 a = some b1 → g2 a = some b2 → R b1 b2) :
    ∀ (l : List α) (r1 r2 : List β),
      mapOptM g1 l = some r1 → mapOptM g2 l = some r2 → List.Forall₂ R r1 r2 := by
  intro l
  induction l with
  | nil =>
    intro r1 r2 h1 h2
    injection h1 with h1e
    injection h2 with h2e
    subst h1e h2e
    exact List.Forall₂.nil
  | cons a tl ih =>
    intro r1 r2 h1 h2
    simp only [mapOptM] at h1 h2
    cases hga : g1 a with
    | none => rw [hga] at h1; exact Option.noConfusion h1
    | some b1 =>
      rw [hga] at h1
      cases hta : mapOptM g1 tl with
      | none => rw [hta] at h1; exact Option.noConfusion h1
      | some bs1 =>
        rw [hta] at h1
        cases hgb : g2 a with
        | none => rw [hgb] at h2; exact Option.noConfusion h2
        | some b2 =>
          rw [hgb] at h2
          cases htb : mapOptM g2 tl with
          | none => rw [htb] at h2; exact Option.noConfusion h2
          | some bs2 =>
            rw [htb] at h2
            injection h1 with h1e
            injection h2 with h2e
            subst h1e h2e
            exact List.Forall₂.cons (hg a b1 b2 hga hgb) (ih bs1 bs2 hta htb)

/-- Two runs of the same cell's task under two valid set-iteration orders
produce pointwise `TagEquiv` results. -/
lemma process_cell_tagEquiv (reg : Region) (w : World) {e1 e2 : List String → List String}
    (he1 : SetEnum e1) (he2 : SetEnum e2) :
    ∀ (fuel : Nat) (c : Cell) (out1 out2 : List Feature),
      process_cell reg e1 w fuel c = some out1 →
      process_cell reg e2 w fuel c = some out2 →
      List.Forall₂ TagEquiv out1 out2 := by
  intro fuel
  induction fuel with
  | zero => intro c out1 out2 h1 _; exact Option.noConfusion h1
  | succ n ih =>
    intro c out1 out2 h1 h2
    simp only [process_cell] at h1 h2
    by_cases hint : reg.intersects c = true
    · rw [if_pos hint] at h1 h2
      cases hfc : fetchCell w c with
      | none => simp only [hfc] at h1; exact Option.noConfusion h1
      | some items =>
        simp only [hfc] at h1 h2
        by_cases hlen : items.length = API_LIMIT
        · rw [if_pos hlen] at h1 h2
          rcases ha1 : process_cell reg e1 w n ⟨c.lon, c.lat, c.size / 2⟩ with _ | r1 <;>
            simp only [ha1] at h1
          · exact Option.noConfusion h1
          rcases ha2 : process_cell reg e1 w n ⟨c.lon + c.size / 2, c.lat, c.size / 2⟩
              with _ | r2 <;> simp only [ha2] at h1
          · exact Option.noConfusion h1
          rcases ha3 : process_cell reg e1 w n ⟨c.lon, c.lat + c.size / 2, c.size / 2⟩
              with _ | r3 <;> simp only [ha3] at h1
          · exact Option.noConfusion h1
          rcases ha4 : process_cell reg e1 w n
              ⟨c.lon + c.size / 2, c.lat + c.size / 2, c.size / 2⟩ with _ | r4 <;>
            simp only [ha4] at h1
          · exact Option.noConfusion h1
          rcases hb1 : process_cell reg e2 w n ⟨c.lon, c.lat, c.size / 2⟩ with _ | s1 <;>
            simp only [hb1] at h2
          · exact Option.noConfusion h2
          rcases hb2 : process_cell reg e2 w n ⟨c.lon + c.size / 2, c.lat, c.size / 2⟩
              with _ | s2 <;> simp only [hb2] at h2
          · exact Option.noConfusion h2
          rcases hb3 : process_cell reg e2 w n ⟨c.lon, c.lat + c.size / 2, c.size / 2⟩
              with _ | s3 <;> simp only [hb3] at h2
          · exact Option.noConfusion h2
          rcases hb4 : process_cell reg e2 w n
              ⟨c.lon + c.size / 2, c.lat + c.size / 2, c.size / 2⟩ with _ | s4 <;>
            simp only [hb4] at h2
          · exact Option.noConfusion h2
          injection h1 with h1e
          injection h2 with h2e
          subst h1e h2e
          exact List.rel_append
            (List.rel_append (List.rel_append (ih _ _ _ ha1 hb1) (ih _ _ _ ha2 hb2))
              (ih _ _ _ ha3 hb3))
            (ih _ _ _ ha4 hb4)
        · rw [if_neg hlen] at h1 h2
          obtain ⟨kept1, hfk1, hm1⟩ := Option.bind_eq_some.mp h1
          obtain ⟨kept2, hfk2, hm2⟩ := Option.bind_eq_some.mp h2
          rw [hfk1] at hfk2
          injection hfk2 with hke
          subst hke
          exact mapOptM_forall2 TagEquiv (process_feature e1) (process_feature e2)
            (fun a b1 b2 hx hy => process_feature_tagEquiv he1 he2 hx hy) kept1 out1 out2 hm1 hm2
    · rw [if_neg hint] at h1 h2
      injection h1 with h1e
      injection h2 with h2e
      subst h1e h2e
      exact List.Forall₂.nil

/-- Inserting `TagEquiv`-related records into pointwise-related lists keeps
them pointwise related: the sort key (`id`) is `TagEquiv`-invariant. -/
lemma orderedInsert_tagEquiv {a b : Feature} (hab : TagEquiv a b) :
    ∀ {l1 l2 : List Feature}, List.Forall₂ TagEquiv l1 l2 →
      List.Forall₂ TagEquiv
        (l1.orderedInsert (fun x y => x.props.id ≤ y.props.id) a)
        (l2.orderedInsert (fun x y => x.props.id ≤ y.props.id) b) := by
  intro l1 l2 h
  induction h with
  | nil => exact List.Forall₂.cons hab List.Forall₂.nil
  | cons hxy htail ih =>
    rename_i x y tl1 tl2
    simp only [List.orderedInsert]
    by_cases hax : a.props.id ≤ x.props.id
    · rw [if_pos hax, if_pos (by rw [← hab.2.1, ← hxy.2.1]; exact hax)]
      exact List.Forall₂.cons hab (List.Forall₂.cons hxy htail)
    · rw [if_neg hax, if_neg (by rw [← hab.2.1, ← hxy.2.1]; exact hax)]
      exact List.Forall₂.cons hxy ih

/-- Stable sorting by id maps pointwise `TagEquiv` lists to pointwise
`TagEquiv` lists. -/
lemma save_result_tagEquiv :
    ∀ {l1 l2 : List Feature}, List.Forall₂ TagEquiv l1 l2 →
      List.Forall₂ TagEquiv (save_result l1) (save_result l2) := by
  intro l1 l2 h
  induction h with
  | nil => exact List.Forall₂.nil
  | cons hxy htail ih => exact orderedInsert_tagEquiv hxy ih

/-- Pointwise `TagEquiv` lists have the same id multiset. -/
lemma forall2_countId :
    ∀ {l1 l2 : List Feature}, List.Forall₂ TagEquiv l1 l2 →
      ∀ i : Int, countId l1 i = countId l2 i := by
  intro l1 l2 h
  induction h with
  | nil => intro i; rfl
  | cons hxy htail ih =>
    rename_i x y tl1 tl2
    intro i
    simp only [countId, List.countP_cons]
    have hih := ih i
    simp only [countId] at hih
    rw [hih, hxy.2.1]

/-- C4 (amended): two runs over an unchanged world, differing only in their
salted-hash set-iteration orders, produce artifacts that agree record by
record on every field except the internal order of the space-joined `tags`
tokens, and in particular carry the same note ids with the same
multiplicities. -/
theorem c4_determinism_up_to_tag_order (reg : Region) (w : World) (fuel : Nat)
    (e1 e2 : List String → List String) (he1 : SetEnum e1) (he2 : SetEnum e2)
    (out1 out2 : List Feature)
    (h1 : main reg e1 w fuel = some out1) (h2 : main reg e2 w fuel = some out2) :
    List.Forall₂ TagEquiv out1 out2 ∧ ∀ i : Int, countId out1 i = countId out2 i := by
  unfold main at h1 h2
  cases hm1 : mapOptM (fun c => process_cell reg e1 w fuel c) (bootstrap_cells reg) with
  | none => rw [hm1] at h1; exact Option.noConfusion h1
  | some outs1 =>
    rw [hm1] at h1
    cases hm2 : mapOptM (fun c => process_cell reg e2 w fuel c) (bootstrap_cells reg) with
    | none => rw [hm2] at h2; exact Option.noConfusion h2
    | some outs2 =>
      rw [hm2] at h2
      injection h1 with h1e
      injection h2 with h2e
      subst h1e h2e
      have houts : List.Forall₂ (List.Forall₂ TagEquiv) outs1 outs2 :=
        mapOptM_forall2 (List.Forall₂ TagEquiv) _ _
          (fun c o1 o2 hc1 hc2 => process_cell_tagEquiv reg w he1 he2 fuel c o1 o2 hc1 hc2)
          (bootstrap_cells reg) outs1 outs2 hm1 hm2
      have hflat : List.Forall₂ TagEquiv outs1.flatten outs2.flatten :=
        List.rel_flatten houts
      exact ⟨save_result_tagEquiv hflat, forall2_countId (save_result_tagEquiv hflat)⟩

set_option maxRecDepth 8000 in
/-- Counterexample to C4 as stated: over the unchanged `twoTagWorld`, two
runs with different (both valid) set-iteration orders produce artifacts whose
single records differ in the `tags` string — the collections are not equal as
sets and not identical after sorting by identifier. -/
theorem c4_counterexample :
    SetEnum dedupEnum ∧ SetEnum revEnum ∧
    main allReg dedupEnum twoTagWorld 1 = some [twoTagOutAB] ∧
    main allReg revEnum twoTagWorld 1 = some [twoTagOutBA] ∧
    twoTagOutAB ≠ twoTagOutBA :=
  ⟨fun _ => List.Perm.refl _, fun l => List.reverse_perm l.dedup,
   by with_unfolding_all rfl, by with_unfolding_all rfl,
   of_decide_eq_true (by with_unfolding_all rfl)⟩

/-! ### C1 — coverage: each eligible note appears exactly once (off-grid) -/

/-- Off-grid transfers from a cell to any half-pitch translate of its
half-sized subcells. -/
lemma offGrid_shift {c : Cell} {p : ℚ × ℚ} (h : OffGrid c p) (a b : ℤ) :
    OffGrid ⟨c.lon + (a : ℚ) * (c.size / 2), c.lat + (b : ℚ) * (c.size / 2), c.size / 2⟩ p := by
  intro d k
  have hx := (h (d + 1) (a * 2 ^ d + k)).1
  have hy := (h (d + 1) (b * 2 ^ d + k)).2
  have h2d : ((2 : ℚ)) ^ d ≠ 0 := by positivity
  constructor
  · intro he
    apply hx
    rw [he]
    push_cast
    rw [pow_succ]
    field_simp
    ring
  · intro he
    apply hy
    rw [he]
    push_cast
    rw [pow_succ]
    field_simp
    ring

/-- Off-grid for a cell transfers to its four children. -/
lemma offGrid_children {c : Cell} {p : ℚ × ℚ} (h : OffGrid c p) :
    OffGrid ⟨c.lon, c.lat, c.size / 2⟩ p ∧
    OffGrid ⟨c.lon + c.size / 2, c.lat, c.size / 2⟩ p ∧
    OffGrid ⟨c.lon, c.lat + c.size / 2, c.size / 2⟩ p ∧
    OffGrid ⟨c.lon + c.size / 2, c.lat + c.size / 2, c.size / 2⟩ p :=
  ⟨by simpa using offGrid_shift h 0 0, by simpa using offGrid_shift h 1 0,
   by simpa using offGrid_shift h 0 1, by simpa using offGrid_shift h 1 1⟩

lemma bi_and (a b : Bool) : bi (a && b) = bi a * bi b := by
  cases a <;> cases b <;> rfl

lemma bi_inSeg (a b x : ℚ) : bi (inSeg a b x) = if a ≤ x ∧ x ≤ a + b then 1 else 0 := by
  by_cases h1 : a ≤ x <;> by_cases h2 : x ≤ a + b <;>
    simp [inSeg, bi, h1, h2]

/-- Splitting a closed segment of positive length at its (avoided) midpoint:
the point lies in exactly as many halves as it lies in the whole. -/
lemma seg_split (x l s : ℚ) (hs : 0 < s) (h0 : x ≠ l) (hm : x ≠ l + s / 2)
    (h1 : x ≠ l + s) :
    bi (inSeg l (s / 2) x) + bi (inSeg (l + s / 2) (s / 2) x) = bi (inSeg l s x) := by
  rw [bi_inSeg, bi_inSeg, bi_inSeg]
  rcases h0.lt_or_lt with ha | ha
  · rw [if_neg (fun hc => absurd hc.1 (not_le.mpr ha)),
      if_neg (fun hc => absurd hc.1 (not_le.mpr (by linarith))),
      if_neg (fun hc => absurd hc.1 (not_le.mpr ha))]
  · rcases hm.lt_or_lt with hb | hb
    · rw [if_pos ⟨ha.le, hb.le⟩,
        if_neg (fun hc => absurd hc.1 (not_le.mpr hb)),
        if_pos ⟨ha.le, by linarith⟩]
    · rcases h1.lt_or_lt with hc | hc
      · rw [if_neg (fun hz => absurd hz.2 (not_le.mpr hb)),
          if_pos ⟨hb.le, by linarith⟩,
          if_pos ⟨ha.le, hc.le⟩]
      · rw [if_neg (fun hz => absurd hz.2 (not_le.mpr (by linarith))),
          if_neg (fun hz => absurd hz.2 (not_le.mpr (by linarith))),
          if_neg (fun hz => absurd hz.2 (not_le.mpr hc))]

/-- The four children of a positive cell catch an off-grid point exactly as
often as the parent does (no duplication, no loss). -/
lemma children_bi_sum {c : Cell} {p : ℚ × ℚ} (hs : 0 < c.size) (hoff : OffGrid c p) :
    bi (inCellB ⟨c.lon, c.lat, c.size / 2⟩ p)
      + bi (inCellB ⟨c.lon + c.size / 2, c.lat, c.size / 2⟩ p)
      + bi (inCellB ⟨c.lon, c.lat + c.size / 2, c.size / 2⟩ p)
      + bi (inCellB ⟨c.lon + c.size / 2, c.lat + c.size / 2, c.size / 2⟩ p)
      = bi (inCellB c p) := by
  have hx0 : p.1 ≠ c.lon := by simpa using (hoff 0 0).1
  have hxm : p.1 ≠ c.lon + c.size / 2 := by simpa using (hoff 1 1).1
  have hx1 : p.1 ≠ c.lon + c.size := by simpa using (hoff 0 1).1
  have hy0 : p.2 ≠ c.lat := by simpa using (hoff 0 0).2
  have hym : p.2 ≠ c.lat + c.size / 2 := by simpa using (hoff 1 1).2
  have hy1 : p.2 ≠ c.lat + c.size := by simpa using (hoff 0 1).2
  have ex := seg_split p.1 c.lon c.size hs hx0 hxm hx1
  have ey := seg_split p.2 c.lat c.size hs hy0 hym hy1
  simp only [inCellB]
  rw [bi_and, bi_and, bi_and, bi_and, bi_and, ← ex, ← ey]
  ring

lemma countId_append (l1 l2 : List Feature) (i : Int) :
    countId (l1 ++ l2) i = countId l1 i + countId l2 i := by
  simp [countId, List.countP_append]

/-- Normalization keeps ids, so the id census of a batch is unchanged. -/
lemma mapOptM_countId {enum : List String → List String} :
    ∀ {l out : List Feature}, mapOptM (process_feature enum) l = some out →
      ∀ i : Int, countId out i = countId l i := by
  intro l
  induction l with
  | nil =>
    intro out h i
    injection h with h2
    subst h2
    rfl
  | cons a t ih =>
    intro out h i
    simp only [mapOptM] at h
    cases hg : process_feature enum a with
    | none => rw [hg] at h; exact Option.noConfusion h
    | some b =>
      rw [hg] at h
      cases ht : mapOptM (process_feature enum) t with
      | none => rw [ht] at h; exact Option.noConfusion h
      | some bs =>
        rw [ht] at h
        injection h with h2
        subst h2
        simp only [countId, List.countP_cons]
        have hbs := ih ht i
        simp only [countId] at hbs
        rw [hbs, (process_feature_spec hg).1]

/-- `filterKeep`, when it succeeds, is the pure filter by the keep test. -/
lemma filterKeep_eq_filter {reg : Region} :
    ∀ {l r : List Feature}, filterKeep reg l = some r →
      r = l.filter (fun f => (keepTest reg f).getD false) := by
  intro l
  induction l with
  | nil =>
    intro r h
    injection h with h2
    subst h2
    rfl
  | cons a t ih =>
    intro r h
    simp only [filterKeep] at h
    cases hk : keepTest reg a with
    | none => rw [hk] at h; exact Option.noConfusion h
    | some b =>
      rw [hk] at h
      cases ht : filterKeep reg t with
      | none => rw [ht] at h; exact Option.noConfusion h
      | some rest =>
        rw [ht] at h
        injection h with h2
        subst h2
        rw [List.filter_cons, hk]
        cases b with
        | false => simpa using ih ht
        | true => simpa using ih ht

/-- In a list with `Nodup` ids containing `n`, the only feature that can
satisfy an `id = n.id`-guarded predicate is `n` itself. -/
lemma countP_id_unique (P : Feature → Bool) :
    ∀ (w : List Feature) (n : Feature), n ∈ w →
      (w.map (fun f => f.props.id)).Nodup →
      w.countP (fun f => decide (f.props.id = n.props.id) && P f) = if P n then 1 else 0 := by
  intro w
  induction w with
  | nil => intro n hn; exact absurd hn (List.not_mem_nil n)
  | cons a t ih =>
    intro n hn hnd
    rw [List.map_cons, List.nodup_cons] at hnd
    rw [List.countP_cons]
    rcases List.mem_cons.mp hn with rfl | hnt
    · have h0 : t.countP (fun f => decide (f.props.id = n.props.id) && P f) = 0 := by
        rw [List.countP_eq_zero]
        intro f hf hPf
        have hid : f.props.id = n.props.id :=
          of_decide_eq_true ((Bool.and_eq_true _ _).mp hPf).1
        exact hnd.1 (hid ▸ List.mem_map_of_mem (fun f => f.props.id) hf)
      rw [h0]
      simp
    · have hne : ¬(a.props.id = n.props.id) := by
        intro he
        exact hnd.1 (he ▸ List.mem_map_of_mem (fun f => f.props.id) hnt)
      rw [ih n hnt hnd.2]
      simp [hne]

/-- A non-capped page is the whole list of matching notes. -/
lemma take_of_not_cap {l : List Feature} (h : (l.take API_LIMIT).length ≠ API_LIMIT) :
    l.take API_LIMIT = l := by
  rcases le_total l.length API_LIMIT with hle | hle
  · exact List.take_of_length_le hle
  · exact absurd (by rw [List.length_take]; omega) h

/-- The core counting invariant of the subdivision algorithm: a successful
cell task emits a record for the eligible note `n` exactly once if the
(off-grid) note lies in the cell's closed rectangle, and never otherwise —
at any depth, along any subdivision pattern the data forces. -/
lemma process_cell_countId (reg : Region) (enum : List String → List String) (w : World)
    (n : Feature) (hn : n ∈ w.notes)
    (hnd : (w.notes.map (fun f => f.props.id)).Nodup)
    (heli : (keepTest reg n).getD false = true)
    (hcoh : ∀ c : Cell, inCellB c n.geometry = true → reg.intersects c = true) :
    ∀ (fuel : Nat) (c : Cell) (out : List Feature), 0 < c.size →
      process_cell reg enum w fuel c = some out → OffGrid c n.geometry →
      countId out n.props.id = bi (inCellB c n.geometry) := by
  intro fuel
  induction fuel with
  | zero => intro c out _ h _; exact Option.noConfusion h
  | succ m ih =>
    intro c out hs h hoff
    simp only [process_cell] at h
    by_cases hint : reg.intersects c = true
    · rw [if_pos hint] at h
      cases hfc : fetchCell w c with
      | none => simp only [hfc] at h; exact Option.noConfusion h
      | some items =>
        simp only [hfc] at h
        have hitems : items = (w.notes.filter (fun f => inCellB c f.geometry)).take API_LIMIT := by
          unfold fetchCell at hfc
          by_cases hnf : w.netFail c = true
          · rw [if_pos hnf] at hfc; exact Option.noConfusion hfc
          · rw [if_neg hnf] at hfc; injection hfc with h2; exact h2.symm
        by_cases hlen : items.length = API_LIMIT
        · rw [if_pos hlen] at h
          have hs2 : 0 < c.size / 2 := by linarith
          obtain ⟨o1, o2, o3, o4⟩ := offGrid_children hoff
          rcases ha1 : process_cell reg enum w m ⟨c.lon, c.lat, c.size / 2⟩ with _ | r1 <;>
            simp only [ha1] at h
          · exact Option.noConfusion h
          rcases ha2 : process_cell reg enum w m ⟨c.lon + c.size / 2, c.lat, c.size / 2⟩
              with _ | r2 <;> simp only [ha2] at h
          · exact Option.noConfusion h
          rcases ha3 : process_cell reg enum w m ⟨c.lon, c.lat + c.size / 2, c.size / 2⟩
              with _ | r3 <;> simp only [ha3] at h
          · exact Option.noConfusion h
          rcases ha4 : process_cell reg enum w m
              ⟨c.lon + c.size / 2, c.lat + c.size / 2, c.size / 2⟩ with _ | r4 <;>
            simp only [ha4] at h
          · exact Option.noConfusion h
          injection h with h2
          subst h2
          rw [countId_append, countId_append, countId_append,
            ih _ _ hs2 ha1 o1, ih _ _ hs2 ha2 o2, ih _ _ hs2 ha3 o3, ih _ _ hs2 ha4 o4]
          have := children_bi_sum hs hoff
          omega
        · rw [if_neg hlen] at h
          obtain ⟨kept, hfk, hmap⟩ := Option.bind_eq_some.mp h
          have hfull : items = w.notes.filter (fun f => inCellB c f.geometry) := by
            rw [hitems]
            apply take_of_not_cap
            rw [← hitems]
            exact hlen
          rw [mapOptM_countId hmap, filterKeep_eq_filter hfk, hfull]
          rw [countId, List.countP_filter, List.countP_filter]
          have hcongr : ∀ f : Feature,
              ((decide (f.props.id = n.props.id) && (keepTest reg f).getD false)
                && inCellB c f.geometry)
              = (decide (f.props.id = n.props.id)
                && ((keepTest reg f).getD false && inCellB c f.geometry)) := by
            intro f
            rw [Bool.and_assoc]
          rw [List.countP_congr (fun f _ => by rw [hcongr f])]
          rw [countP_id_unique (fun f => (keepTest reg f).getD false && inCellB c f.geometry)
            w.notes n hn hnd]
          rw [heli]
          cases hin : inCellB c n.geometry <;> simp [bi]
    · rw [if_neg hint] at h
      injection h with h2
      subst h2
      have hfalse : inCellB c n.geometry = false := by
        cases hin : inCellB c n.geometry
        · rfl
        · exact absurd (hcoh c hin) hint
      rw [hfalse]
      rfl

/-- Summing the per-cell census over a batch of successful tasks counts the
cells whose rectangle holds the note. -/
lemma flatten_countId (q : Cell → Bool) {g : Cell → Option (List Feature)} {i : Int} :
    ∀ {cells : List Cell} {outs : List (List Feature)},
      mapOptM g cells = some outs →
      (∀ c ∈ cells, ∀ out, g c = some out → countId out i = bi (q c)) →
      countId outs.flatten i = cells.countP q := by
  intro cells
  induction cells with
  | nil =>
    intro outs h _
    injection h with h2
    subst h2
    rfl
  | cons c ct ih =>
    intro outs h hc
    simp only [mapOptM] at h
    cases hg : g c with
    | none => rw [hg] at h; exact Option.noConfusion h
    | some o =>
      rw [hg] at h
      cases hts : mapOptM g ct with
      | none => rw [hts] at h; exact Option.noConfusion h
      | some os =>
        rw [hts] at h
        injection h with h2
        subst h2
        rw [List.flatten_cons, countId_append,
          hc c (List.mem_cons_self c ct) o hg,
          ih hts (fun a ha out hout => hc a (List.mem_cons_of_mem c ha) out hout),
          List.countP_cons]
        simp only [bi]
        omega

lemma countP_flatMap {α β : Type} (l : List α) (f : α → List β) (q : β → Bool) :
    (l.flatMap f).countP q = (l.map (fun a => (f a).countP q)).sum := by
  induction l with
  | nil => rfl
  | cons a t ih => simp [List.flatMap_cons, List.countP_append, ih]

lemma countP_eq_one_of_unique {α : Type} {l : List α} {P : α → Bool} {a : α}
    (hnd : l.Nodup) (ha : a ∈ l) (hP : P a = true)
    (hu : ∀ b ∈ l, P b = true → b = a) : l.countP P = 1 := by
  induction l with
  | nil => exact absurd ha (List.not_mem_nil a)
  | cons c t ih =>
    rw [List.nodup_cons] at hnd
    rw [List.countP_cons]
    rcases List.mem_cons.mp ha with rfl | hat
    · have h0 : t.countP P = 0 := by
        rw [List.countP_eq_zero]
        intro b hb hPb
        exact hnd.1 ((hu b (List.mem_cons_of_mem a hb) hPb) ▸ hb)
      rw [h0, hP]
      rfl
    · have hPc : P c = false := by
        cases hPc2 : P c
        · rfl
        · exact absurd ((hu c (List.mem_cons_self c t) hPc2) ▸ hat) hnd.1
      rw [hPc, ih hnd.2 hat (fun b hb hPb => hu b (List.mem_cons_of_mem c hb) hPb)]
      rfl

/-- One axis of the bootstrap grid: a coordinate strictly inside the covered
span and off the pitch-`INIT_CELL_SIZE` lattice lies in exactly one column. -/
lemma countP_range_axis (steps : ℕ) (m x : ℚ)
    (h1 : m ≤ x) (h2 : x < m + (steps : ℚ) * INIT_CELL_SIZE)
    (hne : ∀ k : ℤ, x ≠ m + (k : ℚ) * INIT_CELL_SIZE) :
    (List.range steps).countP
      (fun i : ℕ => inSeg (m + (i : ℚ) * INIT_CELL_SIZE) INIT_CELL_SIZE x) = 1 := by
  have hICS : INIT_CELL_SIZE = (4 : ℚ) := rfl
  rw [hICS] at h2 hne ⊢
  have hx0 : m < x := by
    rcases (hne 0).lt_or_lt with hlt | hlt
    · exact absurd h1 (not_le.mpr (by simpa using hlt))
    · simpa using hlt
  set q : ℤ := ⌊(x - m) / 4⌋ with hq
  have hq0 : 0 ≤ q := Int.floor_nonneg.mpr (div_nonneg (by linarith) (by norm_num))
  have hfl : (q : ℚ) ≤ (x - m) / 4 := Int.floor_le _
  have hfu : (x - m) / 4 < (q : ℚ) + 1 := Int.lt_floor_add_one _
  have hql : (q : ℚ) * 4 ≤ x - m := by
    have := mul_le_mul_of_nonneg_right hfl (by norm_num : (0:ℚ) ≤ 4)
    calc (q : ℚ) * 4 ≤ (x - m) / 4 * 4 := this
      _ = x - m := by ring
  have hqu : x - m < ((q : ℚ) + 1) * 4 := by
    have := mul_lt_mul_of_pos_right hfu (by norm_num : (0:ℚ) < 4)
    calc x - m = (x - m) / 4 * 4 := by ring
      _ < ((q : ℚ) + 1) * 4 := this
  have hcast : ((q.toNat : ℕ) : ℚ) = (q : ℚ) := by
    rw [show ((q.toNat : ℕ) : ℚ) = (((q.toNat : ℕ) : ℤ) : ℚ) by push_cast; ring,
      Int.toNat_of_nonneg hq0]
  have hqsteps : q.toNat < steps := by
    have h4 : (q : ℚ) * 4 < (steps : ℚ) * 4 := by linarith
    have : (q : ℚ) < (steps : ℚ) := lt_of_mul_lt_mul_right h4 (by norm_num)
    have : q < (steps : ℤ) := by exact_mod_cast this
    omega
  apply countP_eq_one_of_unique (List.nodup_range steps) (List.mem_range.mpr hqsteps)
  · simp only [inSeg, Bool.and_eq_true, decide_eq_true_eq]
    rw [hcast]
    constructor
    · linarith
    · linarith
  · intro j hj hPj
    simp only [inSeg, Bool.and_eq_true, decide_eq_true_eq] at hPj
    obtain ⟨hj1, hj2⟩ := hPj
    have hj1s : m + (j : ℚ) * 4 < x := by
      rcases (hne j).lt_or_lt with hlt | hlt
      · exact absurd hj1 (not_le.mpr hlt)
      · exact hlt
    have hj2s : x < m + (j : ℚ) * 4 + 4 := by
      rcases (hne ((j : ℤ) + 1)).lt_or_lt with hlt | hlt
      · have : x < m + ((j : ℚ) + 1) * 4 := by
          push_cast at hlt
          linarith
        linarith
      · exfalso
        push_cast at hlt
        linarith
    have hfloor : q = (j : ℤ) := by
      rw [hq]
      rw [Int.floor_eq_iff]
      constructor
      · push_cast
        rw [le_div_iff₀ (by norm_num : (0:ℚ) < 4)]
        linarith
      · push_cast
        rw [div_lt_iff₀ (by norm_num : (0:ℚ) < 4)]
        linarith
    omega

/-- The pitch-4 lattice avoidance on one axis, extracted from `OffGridG`. -/
lemma offGridG_axis {reg : Region} {p : ℚ × ℚ} (h : OffGridG reg p) :
    (∀ k : ℤ, p.1 ≠ reg.minLon + (k : ℚ) * INIT_CELL_SIZE) ∧
    (∀ k : ℤ, p.2 ≠ reg.minLat + (k : ℚ) * INIT_CELL_SIZE) := by
  constructor
  · intro k
    have := (h 0 k).1
    simpa using this
  · intro k
    have := (h 0 k).2
    simpa using this

/-- Every bootstrap cell keeps an `OffGridG` point off its own dyadic grid. -/
lemma offGridG_cell {reg : Region} {p : ℚ × ℚ} (hoffg : OffGridG reg p) (i j : ℕ) :
    OffGrid ⟨reg.minLon + (i : ℚ) * INIT_CELL_SIZE, reg.minLat + (j : ℚ) * INIT_CELL_SIZE,
             INIT_CELL_SIZE⟩ p := by
  intro d k
  have hx := (hoffg d ((i : ℤ) * 2 ^ d + k)).1
  have hy := (hoffg d ((j : ℤ) * 2 ^ d + k)).2
  have h2d : ((2 : ℚ)) ^ d ≠ 0 := by positivity
  constructor
  · intro he
    apply hx
    rw [he]
    push_cast
    field_simp
    ring
  · intro he
    apply hy
    rw [he]
    push_cast
    field_simp
    ring

lemma sum_map_bi {α : Type} (l : List α) (P : α → Bool) :
    (l.map (fun a => bi (P a))).sum = l.countP P := by
  induction l with
  | nil => rfl
  | cons a t ih =>
    rw [List.map_cons, List.sum_cons, ih, List.countP_cons]
    simp only [bi]
    omega

lemma countP_and_const {α : Type} (l : List α) (b : Bool) (f : α → Bool) :
    l.countP (fun a => b && f a) = bi b * l.countP f := by
  cases b with
  | false => simp [bi, List.countP_eq_zero]
  | true => simp [bi]

/-- The ceiling-division step count spans at least the box extent. -/
lemma ceil_steps_bound (m M : ℚ) (hle : m ≤ M) :
    M - m ≤ ((⌈(M - m) / INIT_CELL_SIZE⌉.toNat : ℕ) : ℚ) * INIT_CELL_SIZE := by
  have hICS : INIT_CELL_SIZE = (4 : ℚ) := rfl
  rw [hICS]
  have hc0 : (0 : ℤ) ≤ ⌈(M - m) / 4⌉ :=
    Int.ceil_nonneg (div_nonneg (by linarith) (by norm_num))
  have hcast : ((⌈(M - m) / 4⌉.toNat : ℕ) : ℚ) = (⌈(M - m) / 4⌉ : ℚ) := by
    rw [show ((⌈(M - m) / 4⌉.toNat : ℕ) : ℚ) = ((((⌈(M - m) / 4⌉.toNat : ℕ) : ℤ)) : ℚ) by
        push_cast; ring,
      Int.toNat_of_nonneg hc0]
  rw [hcast]
  have hle2 : (M - m) / 4 ≤ (⌈(M - m) / 4⌉ : ℚ) := Int.le_ceil _
  have := mul_le_mul_of_nonneg_right hle2 (by norm_num : (0:ℚ) ≤ 4)
  calc M - m = (M - m) / 4 * 4 := by ring
    _ ≤ (⌈(M - m) / 4⌉ : ℚ) * 4 := this

/-- An off-grid point of the bounding box lies in exactly one bootstrap
cell. -/
lemma grid_countP_eq_one (reg : Region) (p : ℚ × ℚ)
    (hx1 : reg.minLon ≤ p.1) (hx2 : p.1 ≤ reg.maxLon)
    (hy1 : reg.minLat ≤ p.2) (hy2 : p.2 ≤ reg.maxLat)
    (hoffg : OffGridG reg p) :
    (bootstrap_cells reg).countP (fun c => inCellB c p) = 1 := by
  obtain ⟨hnex, hney⟩ := offGridG_axis hoffg
  have hxlt : p.1 < reg.minLon
      + ((⌈(reg.maxLon - reg.minLon) / INIT_CELL_SIZE⌉.toNat : ℕ) : ℚ) * INIT_CELL_SIZE := by
    have hb := ceil_steps_bound reg.minLon reg.maxLon (by linarith)
    rcases (hnex (⌈(reg.maxLon - reg.minLon) / INIT_CELL_SIZE⌉.toNat : ℕ)).lt_or_lt
        with hlt | hlt
    · have : p.1 < reg.minLon
          + (((⌈(reg.maxLon - reg.minLon) / INIT_CELL_SIZE⌉.toNat : ℕ) : ℤ) : ℚ)
            * INIT_CELL_SIZE := hlt
      push_cast at this ⊢
      linarith
    · exfalso
      have : reg.minLon
          + (((⌈(reg.maxLon - reg.minLon) / INIT_CELL_SIZE⌉.toNat : ℕ) : ℤ) : ℚ)
            * INIT_CELL_SIZE < p.1 := hlt
      push_cast at this
      linarith
  have hylt : p.2 < reg.minLat
      + ((⌈(reg.maxLat - reg.minLat) / INIT_CELL_SIZE⌉.toNat : ℕ) : ℚ) * INIT_CELL_SIZE := by
    have hb := ceil_steps_bound reg.minLat reg.maxLat (by linarith)
    rcases (hney (⌈(reg.maxLat - reg.minLat) / INIT_CELL_SIZE⌉.toNat : ℕ)).lt_or_lt
        with hlt | hlt
    · have : p.2 < reg.minLat
          + (((⌈(reg.maxLat - reg.minLat) / INIT_CELL_SIZE⌉.toNat : ℕ) : ℤ) : ℚ)
            * INIT_CELL_SIZE := hlt
      push_cast at this ⊢
      linarith
    · exfalso
      have : reg.minLat
          + (((⌈(reg.maxLat - reg.minLat) / INIT_CELL_SIZE⌉.toNat : ℕ) : ℤ) : ℚ)
            * INIT_CELL_SIZE < p.2 := hlt
      push_cast at this
      linarith
  unfold bootstrap_cells
  rw [countP_flatMap]
  have hinner : ∀ i : ℕ,
      (((List.range ⌈(reg.maxLat - reg.minLat) / INIT_CELL_SIZE⌉.toNat).map (fun j : ℕ =>
          (⟨reg.minLon + (i : ℚ) * INIT_CELL_SIZE, reg.minLat + (j : ℚ) * INIT_CELL_SIZE,
            INIT_CELL_SIZE⟩ : Cell))).countP (fun c => inCellB c p))
        = bi (inSeg (reg.minLon + (i : ℚ) * INIT_CELL_SIZE) INIT_CELL_SIZE p.1) := by
    intro i
    rw [List.countP_map]
    have : ((List.range ⌈(reg.maxLat - reg.minLat) / INIT_CELL_SIZE⌉.toNat).countP
        ((fun c => inCellB c p) ∘ (fun j : ℕ =>
          (⟨reg.minLon + (i : ℚ) * INIT_CELL_SIZE, reg.minLat + (j : ℚ) * INIT_CELL_SIZE,
            INIT_CELL_SIZE⟩ : Cell))))
        = ((List.range ⌈(reg.maxLat - reg.minLat) / INIT_CELL_SIZE⌉.toNat).countP
          (fun j : ℕ => inSeg (reg.minLon + (i : ℚ) * INIT_CELL_SIZE) INIT_CELL_SIZE p.1
            && inSeg (reg.minLat + (j : ℚ) * INIT_CELL_SIZE) INIT_CELL_SIZE p.2)) := by
      apply List.countP_congr
      intro j _
      rfl
    rw [this, countP_and_const, countP_range_axis _ _ _ hy1 hylt hney]
    exact Nat.mul_one _
  calc ((List.range ⌈(reg.maxLon - reg.minLon) / INIT_CELL_SIZE⌉.toNat).map (fun i : ℕ =>
        (((List.range ⌈(reg.maxLat - reg.minLat) / INIT_CELL_SIZE⌉.toNat).map (fun j : ℕ =>
          (⟨reg.minLon + (i : ℚ) * INIT_CELL_SIZE, reg.minLat + (j : ℚ) * INIT_CELL_SIZE,
            INIT_CELL_SIZE⟩ : Cell))).countP (fun c => inCellB c p)))).sum
      = ((List.range ⌈(reg.maxLon - reg.minLon) / INIT_CELL_SIZE⌉.toNat).map (fun i : ℕ =>
          bi (inSeg (reg.minLon + (i : ℚ) * INIT_CELL_SIZE) INIT_CELL_SIZE p.1))).sum := by
        rw [List.map_congr_left (fun i _ => hinner i)]
    _ = 1 := by
        rw [sum_map_bi, countP_range_axis _ _ _ hx1 hxlt hnex]

/-- C1 (amended): in any successful run, an open note with a nonempty
comment list, geometry inside the region polygon (hence in its bounding box),
a unique id, and coordinates off the dyadic subdivision lattice appears in the
artifact exactly once: subdivision duplicates nothing and boundary cells omit
nothing.  (The off-lattice hypothesis is necessary: the bbox filter is a
closed-rectangle intersection, so a note exactly on a shared cell edge is
fetched by the adjacent cells and, the code performing no dedup, duplicated —
see the counterexample.) -/
theorem c1_coverage_exactly_once (reg : Region) (enum : List String → List String)
    (w : World) (fuel : Nat) (out : List Feature) (n : Feature)
    (hrun : main reg enum w fuel = some out)
    (hn : n ∈ w.notes)
    (hnd : (w.notes.map (fun f => f.props.id)).Nodup)
    (hcomments : ∃ (cfirst : Comment) (crest : List Comment),
      n.props.comments = some (cfirst :: crest))
    (hcont : reg.contains n.geometry = true)
    (hcoh : ∀ c : Cell, inCellB c n.geometry = true → reg.intersects c = true)
    (hx1 : reg.minLon ≤ n.geometry.1) (hx2 : n.geometry.1 ≤ reg.maxLon)
    (hy1 : reg.minLat ≤ n.geometry.2) (hy2 : n.geometry.2 ≤ reg.maxLat)
    (hoffg : OffGridG reg n.geometry) :
    countId out n.props.id = 1 := by
  have heli : (keepTest reg n).getD false = true := by
    obtain ⟨cf, cr, hcs⟩ := hcomments
    unfold keepTest
    rw [hcs]
    simp [hcont]
  unfold main at hrun
  cases hm : mapOptM (fun c => process_cell reg enum w fuel c) (bootstrap_cells reg) with
  | none => rw [hm] at hrun; exact Option.noConfusion hrun
  | some outs =>
    rw [hm] at hrun
    injection hrun with h2
    subst h2
    have hperm : countId (save_result outs.flatten) n.props.id
        = countId outs.flatten n.props.id := by
      unfold countId save_result
      exact List.Perm.countP_eq _ (List.perm_insertionSort _ _)
    rw [hperm]
    have hcells : ∀ c ∈ bootstrap_cells reg, 0 < c.size ∧ OffGrid c n.geometry := by
      intro c hc
      unfold bootstrap_cells at hc
      obtain ⟨i, hi, hmap⟩ := List.mem_flatMap.mp hc
      obtain ⟨j, hj, rfl⟩ := List.mem_map.mp hmap
      exact ⟨by norm_num [INIT_CELL_SIZE], offGridG_cell hoffg i j⟩
    rw [flatten_countId (fun c => inCellB c n.geometry) hm (fun c hc out2 hout2 =>
      process_cell_countId reg enum w n hn hnd heli hcoh fuel c out2 (hcells c hc).1 hout2
        (hcells c hc).2)]
    exact grid_countP_eq_one reg n.geometry hx1 hx2 hy1 hy2 hoffg

set_option maxRecDepth 8000 in
/-- Counterexample to C1 as stated: `edgeNote` is an open note inside the
region that an unbounded single query would return once, yet the run's
artifact contains its record twice — both cells sharing the edge fetch it
below the cap, and the merge performs no deduplication. -/
theorem c1_counterexample :
    edgeNote ∈ edgeWorld.notes ∧
    allReg.contains edgeNote.geometry = true ∧
    main allReg dedupEnum edgeWorld 1 = some [edgeOut, edgeOut] ∧
    countId [edgeOut, edgeOut] 7 = 2 :=
  ⟨of_decide_eq_true (by with_unfolding_all rfl),
   of_decide_eq_true (by with_unfolding_all rfl),
   by with_unfolding_all rfl,
   of_decide_eq_true (by with_unfolding_all rfl)⟩

/-- `1/3` is never of the form `k · 4 / 2^d`: otherwise `2^d = 12k`, making
`3` divide a power of `2`. -/
lemma third_ne_lattice (d : ℕ) (k : ℤ) : (1/3 : ℚ) ≠ 0 + (k : ℚ) * (4 / 2 ^ d) := by
  intro he
  have h2 : ((2 : ℚ)) ^ d ≠ 0 := by positivity
  rw [zero_add] at he
  have key : (2 : ℚ) ^ d = (k : ℚ) * 12 := by
    field_simp at he
    linarith
  have key2 : (2 : ℤ) ^ d = k * 12 := by exact_mod_cast key
  have h3 : (3 : ℤ) ∣ 2 ^ d := ⟨k * 4, by linarith⟩
  have h4 : (3 : ℤ) ∣ 2 := Int.prime_three.dvd_of_dvd_pow h3
  norm_num at h4

/-- The point `(1/3, 1/3)` avoids the whole dyadic grid of the `(0,0)-(8,8)`
box. -/
lemma third_offGridG : OffGridG allReg ((1/3 : ℚ), (1/3 : ℚ)) :=
  fun d k => ⟨third_ne_lattice d k, third_ne_lattice d k⟩

set_option maxRecDepth 8000 in
/-- Witness for C1 (amended) on the concrete run over `thirdWorld`. -/
theorem c1_coverage_exactly_once_witness : countId [thirdOut] 7 = 1 :=
  c1_coverage_exactly_once allReg dedupEnum thirdWorld 1 [thirdOut] thirdNote
    (by with_unfolding_all rfl)
    (of_decide_eq_true (by with_unfolding_all rfl))
    (of_decide_eq_true (by with_unfolding_all rfl))
    ⟨⟨some "bob", some "in", some "2024-01-02"⟩, [], rfl⟩
    rfl
    (fun _ _ => rfl)
    (of_decide_eq_true (by with_unfolding_all rfl))
    (of_decide_eq_true (by with_unfolding_all rfl))
    (of_decide_eq_true (by with_unfolding_all rfl))
    (of_decide_eq_true (by with_unfolding_all rfl))
    third_offGridG

set_option maxRecDepth 8000 in
/-- Witness for C4 (amended) on the two concrete runs over `twoTagWorld`. -/
theorem c4_determinism_up_to_tag_order_witness :
    List.Forall₂ TagEquiv [twoTagOutAB] [twoTagOutBA] :=
  (c4_determinism_up_to_tag_order allReg twoTagWorld 1 dedupEnum revEnum
      (fun _ => List.Perm.refl _) (fun l => List.reverse_perm l.dedup)
      [twoTagOutAB] [twoTagOutBA]
      (by with_unfolding_all rfl) (by with_unfolding_all rfl)).1

set_option maxRecDepth 8000 in
/-- Witness for C3: the record the run over `goodWorld` outputs is inside the
region. -/
theorem c3_containment_invariant_witness :
    allReg.contains goodNoteOut.geometry = true :=
  c3_containment_invariant allReg dedupEnum goodWorld 1 [goodNoteOut] goodNoteOut
    (by with_unfolding_all rfl)
    (of_decide_eq_true (by with_unfolding_all rfl))

end OsmNotes

